import Mathlib

/-!
# Attribute ranges and the response writer of `att/attr.go`

A shallow embedding of `Range.idx`, `Range.at`, `Range.subrange` and of
`ResponseWriter` (`Reset`, `Len`, `Cap`, `Write`), followed by the properties
proved about them.

Conventions of the embedding.

* Go's `uint16` handles are natural numbers; a handle `h` is a 16-bit value when
  `h < 65536`.  The conversion `int(h)` is the cast of a natural number to `Int`.
* Go's `int` is `Int`.  Every `int` the code computes is bounded by
  `65536 + len(r.Attributes)`, so no `int` operation of the code wraps.
* A run-time panic (index or slice bounds out of range) is the result `none`.
* Bytes are natural numbers.
* `bytes.Buffer` is the standard library's; its methods are embedded from
  `bytes/buffer.go`.  Memory is unbounded: an allocation never fails.
-/

set_option autoImplicit false

namespace att

/-! ## Data model -/

/-- Attribute is a BLE attribute (`type Attribute struct`).  `Typ` is the field `Type`, a UUID
byte slice, `Value` the static value, `Pvt` the identity of the handler of the upper layer;
`none` stands for Go's `nil`.  None of the functions below calls the handler. -/
structure Attribute where
  Handle : Nat
  EndingHandle : Nat
  Typ : Option (List Nat)
  Value : Option (List Nat)
  Pvt : Option Nat
  deriving DecidableEq

/-- The zero value `Attribute{}`. -/
def Attribute.zero : Attribute :=
  { Handle := 0, EndingHandle := 0, Typ := none, Value := none, Pvt := none }

/-- A Range is a contiguous range of attributes (`type Range struct`); `Base` is the
handle for the first Attribute in `Attributes`. -/
structure Range where
  Attributes : List Attribute
  Base : Nat
  deriving DecidableEq

/-- The sentinel `tooSmall = -1`. -/
def tooSmall : Int := -1

/-- The sentinel `tooLarge = -2`. -/
def tooLarge : Int := -2

/-! ## `Range.idx`, `Range.at`, `Range.subrange` -/

/-- The method `func (r *Range) idx(h int) int`. -/
def Range.idx (r : Range) (h : Int) : Int :=
  if h < (r.Base : Int) then tooSmall
  else if h ≥ (r.Base : Int) + (r.Attributes.length : Int) then tooLarge
  else h - (r.Base : Int)

/-- The index expression `xs[i]` with an `int` index: it panics (`none`) unless
`0 ≤ i < len(xs)`. -/
def index {α : Type} (xs : List α) (i : Int) : Option α :=
  if 0 ≤ i then xs[i.toNat]? else none

/-- The slice expression `xs[lo:hi]`: it panics (`none`) unless `0 ≤ lo ≤ hi ≤ cap(xs)`.
The capacity is taken to be `len(xs)`, its least possible value; `subrange` never passes
an upper operand above `len(xs)`, so its panics are those with `lo > hi`. -/
def slice {α : Type} (xs : List α) (lo hi : Int) : Option (List α) :=
  if 0 ≤ lo ∧ lo ≤ hi ∧ hi ≤ (xs.length : Int) then
    some ((xs.take hi.toNat).drop lo.toNat)
  else none

/-- The method `func (r *Range) at(h uint16) (a Attribute, ok bool)`. -/
def Range.at (r : Range) (h : Nat) : Option (Attribute × Bool) :=
  let i := r.idx (h : Int)
  if i < 0 then some (Attribute.zero, false)
  else (index r.Attributes i).map fun a => (a, true)

/-- The first part of `subrange` (lines 64 to 78): `none` when the function returns
`[]Attribute{}` early, otherwise the operands `(startidx, endidx)` it passes to the
final slice expression `r.Attributes[startidx:endidx]`. -/
def Range.sliceOperands (r : Range) (start endh : Nat) : Option (Int × Int) :=
  let startidx := r.idx (start : Int)
  if startidx = tooLarge then none
  else
    let startidx := if startidx = tooSmall then 0 else startidx
    let endidx := r.idx ((endh : Int) + 1)
    if endidx = tooSmall then none
    else
      let endidx := if endidx = tooLarge then (r.Attributes.length : Int) else endidx
      some (startidx, endidx)

/-- The method `func (r *Range) subrange(start, end uint16) []Attribute`. -/
def Range.subrange (r : Range) (start endh : Nat) : Option (List Attribute) :=
  match r.sliceOperands start endh with
  | none => some []
  | some (startidx, endidx) => slice r.Attributes startidx endidx

/-- The contiguity invariant of a table starting at handle `b`: the attribute at
index `i` has handle `b + i`. -/
def contiguousFrom : Nat → List Attribute → Bool
  | _, [] => true
  | b, a :: t => a.Handle == b && contiguousFrom (b + 1) t

/-- The contiguity invariant of a Range: `Attributes[i].Handle == Base + i`. -/
def Range.contiguous (r : Range) : Bool :=
  contiguousFrom r.Base r.Attributes

/-- The attributes of a list whose handle lies in the closed interval
`[start, endh]`, in list order. -/
def inInterval (start endh : Nat) (xs : List Attribute) : List Attribute :=
  xs.filter fun a => decide (start ≤ a.Handle) && decide (a.Handle ≤ endh)

/-! ## `ResponseWriter` -/

/-- The state of a `bytes.Buffer` (Go standard library, `bytes/buffer.go`), whose fields
are the slice `buf` and the read offset `off`.  `nilSlice` is the buffer whose `buf` is
`nil`.  `slice unread off cap` is a buffer with a non-nil `buf`: `unread` is
`buf[off:]`, `off` the read offset and `cap` is `cap(buf)`, so `len(buf)` is
`off + len(unread)`.  Of the bytes before the read offset only the number is kept: no
operation looks at them again.  In a buffer of a running program
`off + len(unread) ≤ cap`; the type does not require it. -/
inductive Buffer where
  | nilSlice
  | slice (unread : List Nat) (off cap : Nat)
  deriving DecidableEq

/-- The unread bytes `b.buf[b.off:]`. -/
def Buffer.unread : Buffer → List Nat
  | .nilSlice => []
  | .slice u _ _ => u

/-- The read offset `b.off`. -/
def Buffer.off : Buffer → Nat
  | .nilSlice => 0
  | .slice _ o _ => o

/-- The length `len(b.buf)`. -/
def Buffer.lenBuf : Buffer → Nat
  | .nilSlice => 0
  | .slice u o _ => o + u.length

/-- The capacity `cap(b.buf)`. -/
def Buffer.capBuf : Buffer → Nat
  | .nilSlice => 0
  | .slice _ _ c => c

/-- The test `b.buf == nil`. -/
def Buffer.isNil : Buffer → Bool
  | .nilSlice => true
  | .slice _ _ _ => false

/-- The method `(*bytes.Buffer).Len`: `len(b.buf) - b.off`, the number of unread
bytes. -/
def Buffer.Len (b : Buffer) : Int := (b.lenBuf : Int) - (b.off : Int)

/-- The method `(*bytes.Buffer).Cap`: `cap(b.buf)`. -/
def Buffer.Cap (b : Buffer) : Int := (b.capBuf : Int)

/-- The method `(*bytes.Buffer).Reset`: `b.buf = b.buf[:0]; b.off = 0`.  It empties the
buffer and keeps its storage. -/
def Buffer.Reset : Buffer → Buffer
  | .nilSlice => .nilSlice
  | .slice _ _ c => .slice [] 0 c

/-- The errors of package `io` that the writer returns. -/
inductive GoError where
  | ErrShortWrite
  deriving DecidableEq

/-- The constant `smallBufferSize = 64` of package `bytes`. -/
def smallBufferSize : Nat := 64

/-- The sizes in bytes of the small allocation classes of the Go runtime
(`runtime/sizeclasses.go`). -/
def sizeClasses : List Nat :=
  [8, 16, 24, 32, 48, 64, 80, 96, 112, 128, 144, 160, 176, 192, 208, 224, 240, 256,
   288, 320, 352, 384, 416, 448, 480, 512, 576, 640, 704, 768, 896, 1024, 1152, 1280,
   1408, 1536, 1792, 2048, 2304, 2688, 3072, 3200, 3456, 4096, 4864, 5120, 5376, 6144,
   6528, 6784, 6912, 8192, 9472, 9728, 10240, 10880, 12288, 13568, 14336, 16384, 18432,
   19072, 20480, 21760, 24576, 27264, 28672, 32768]

/-- The number of bytes the Go runtime allocates for a byte slice of `n` bytes
(`runtime.roundupsize`): the least allocation class that holds `n` bytes and, above the
largest class, `n` rounded up to whole pages of `8192` bytes. -/
def roundupsize (n : Nat) : Nat :=
  match sizeClasses.find? fun s => decide (n ≤ s) with
  | some s => s
  | none => (n + 8191) / 8192 * 8192

/-- The capacity of the slice returned by `growSlice(b, n)` of package `bytes`, for a
slice `b` of length `lenb` and capacity `capb`: `c := len(b) + n`, raised to `2*cap(b)`
when it is smaller, then `append([]byte(nil), make([]byte, c)...)`, whose capacity is
the allocation size for `c` bytes. -/
def growSliceCap (lenb capb n : Nat) : Nat :=
  roundupsize (if lenb + n < 2 * capb then 2 * capb else lenb + n)

/-- The step `b.buf = b.buf[:l+n]` of `tryGrowByReslice` followed by the copy of `p` to
`b.buf[l:]`, with `l = len(b.buf)` and `n = len(p)`. -/
def Buffer.extend : Buffer → List Nat → Buffer
  | .nilSlice, _ => .nilSlice
  | .slice u o c, p => .slice (u ++ p) o c

/-- The method `(*bytes.Buffer).Write`: the buffer after the call, the count `len(p)` and
the nil error (`none`).  `Write` calls `tryGrowByReslice(len(p))`, which succeeds when
`len(p) <= cap(b.buf) - len(b.buf)`, and otherwise `grow(len(p))`: an empty buffer with a
read offset is first reset and the reslice tried again; a nil `buf` that needs at most
`smallBufferSize` bytes becomes `make([]byte, n, smallBufferSize)`; when
`n <= c/2 - m` (`c` the capacity, `m` the number of unread bytes) the unread bytes slide
down to the start of the storage; otherwise the buffer moves to the storage returned by
`growSlice(b.buf[b.off:], b.off+n)`.  Then `p` is copied behind the unread bytes.
Allocation does not fail, so the panic `ErrTooLarge` does not occur. -/
def Buffer.Write (b : Buffer) (p : List Nat) : Buffer × Int × Option GoError :=
  if (p.length : Int) ≤ (b.capBuf : Int) - (b.lenBuf : Int) then
    (b.extend p, (p.length : Int), none)
  else
    let m := b.unread.length
    let b1 := if m = 0 ∧ b.off ≠ 0 then b.Reset else b
    if (p.length : Int) ≤ (b1.capBuf : Int) - (b1.lenBuf : Int) then
      (b1.extend p, (p.length : Int), none)
    else if b1.isNil = true ∧ p.length ≤ smallBufferSize then
      (.slice p 0 smallBufferSize, (p.length : Int), none)
    else if (p.length : Int) ≤ (b1.capBuf : Int) / 2 - (m : Int) then
      (.slice (b1.unread ++ p) 0 b1.capBuf, (p.length : Int), none)
    else
      (.slice (b1.unread ++ p) 0
        (growSliceCap m (b1.capBuf - b1.off) (b1.off + p.length)), (p.length : Int), none)

/-- The type `ResponseWriter struct { buf *bytes.Buffer }`, with a non-nil buffer. -/
structure ResponseWriter where
  buf : Buffer
  deriving DecidableEq

/-- The method `func (r *ResponseWriter) Reset()`. -/
def ResponseWriter.Reset (r : ResponseWriter) : ResponseWriter :=
  { buf := r.buf.Reset }

/-- The method `func (r *ResponseWriter) Len() int`. -/
def ResponseWriter.Len (r : ResponseWriter) : Int := r.buf.Len

/-- The method `func (r *ResponseWriter) Cap() int`. -/
def ResponseWriter.Cap (r : ResponseWriter) : Int := r.buf.Cap

/-- The method `func (r *ResponseWriter) Write(b []byte) (int, error)`: the writer after
the call, the count returned and the error returned (`none` for nil). -/
def ResponseWriter.Write (r : ResponseWriter) (b : List Nat) :
    ResponseWriter × Int × Option GoError :=
  if (b.length : Int) > r.buf.Cap - r.buf.Len then
    (r, 0, some GoError.ErrShortWrite)
  else
    let res := r.buf.Write b
    ({ buf := res.1 }, res.2.1, res.2.2)

/-- The bytes held by the writer (the unread bytes of its buffer). -/
def ResponseWriter.content (r : ResponseWriter) : List Nat := r.buf.unread

/-- An operation of a client on a writer. -/
inductive Op where
  | write (b : List Nat)
  | reset
  deriving DecidableEq

/-- The writer after one operation. -/
def ResponseWriter.step (r : ResponseWriter) : Op → ResponseWriter
  | Op.write b => (r.Write b).1
  | Op.reset => r.Reset

/-- The writer after a sequence of operations, applied from left to right. -/
def ResponseWriter.run (r : ResponseWriter) : List Op → ResponseWriter
  | [] => r
  | op :: ops => (r.step op).run ops

/-! ## Example tables and writers -/

/-- An attribute with handle `h` and static value `[h]`. -/
def mkAttr (h : Nat) : Attribute :=
  { Handle := h, EndingHandle := h, Typ := none, Value := some [h], Pvt := none }

/-- The table with base `1` and the three handles `1, 2, 3`. -/
def table3 : Range :=
  { Attributes := [mkAttr 1, mkAttr 2, mkAttr 3], Base := 1 }

/-- A table with base `1` whose only attribute carries handle `7`. -/
def tableOff : Range :=
  { Attributes := [mkAttr 7], Base := 1 }

/-- The table with base `65533` and the three handles `65533, 65534, 65535`. -/
def tableTop : Range :=
  { Attributes := [mkAttr 65533, mkAttr 65534, mkAttr 65535], Base := 65533 }

/-- The empty writer of capacity `4`. -/
def writer4 : ResponseWriter := { buf := .slice [] 0 4 }

/-- The empty writer of capacity `c`. -/
def emptyWriter (c : Nat) : ResponseWriter := { buf := .slice [] 0 c }

/-- A writer over a buffer that was read from before it was wrapped: storage of `4`
bytes holding three bytes, the first of them already read, so that `Len()` is `2`, the
unread bytes are `[5, 6]` and `Cap()` is `4`. -/
def writerRead : ResponseWriter := { buf := .slice [5, 6] 1 4 }

/-- The table with base `1` and the three attributes `a0, a1, a2`. -/
def tableOf3 (a0 a1 a2 : Attribute) : Range :=
  { Attributes := [a0, a1, a2], Base := 1 }

/-! ## The handle indexer -/

theorem idx_of_lt (r : Range) (h : Int) (hlt : h < (r.Base : Int)) :
    r.idx h = tooSmall := by
  simp [Range.idx, hlt]

theorem idx_of_ge (r : Range) (h : Int)
    (hge : (r.Base : Int) + (r.Attributes.length : Int) ≤ h) :
    r.idx h = tooLarge := by
  have hnot : ¬ h < (r.Base : Int) := by omega
  simp [Range.idx, hnot, hge]

theorem idx_of_mem (r : Range) (h : Int) (hlo : (r.Base : Int) ≤ h)
    (hhi : h < (r.Base : Int) + (r.Attributes.length : Int)) :
    r.idx h = h - (r.Base : Int) := by
  have h1 : ¬ h < (r.Base : Int) := by omega
  have h2 : ¬ (r.Base : Int) + (r.Attributes.length : Int) ≤ h := by omega
  simp [Range.idx, h1, h2]

/-- C6: `idx` is defined for every integer `h` and has exactly three outcomes: it is
`tooSmall` exactly when `h < Base`, `tooLarge` exactly when `h ≥ Base + len(Attributes)`,
and for `Base ≤ h < Base + len(Attributes)` it is `h - Base`, a valid index
(`0 ≤ idx h < len(Attributes)`); one of the three always holds. -/
theorem idx_three_valued (r : Range) (h : Int) :
    (r.idx h = tooSmall ↔ h < (r.Base : Int)) ∧
    (r.idx h = tooLarge ↔ h ≥ (r.Base : Int) + (r.Attributes.length : Int)) ∧
    ((r.Base : Int) ≤ h → h < (r.Base : Int) + (r.Attributes.length : Int) →
      r.idx h = h - (r.Base : Int) ∧ 0 ≤ r.idx h ∧
        r.idx h < (r.Attributes.length : Int)) ∧
    (r.idx h = tooSmall ∨ r.idx h = tooLarge ∨
      (r.idx h = h - (r.Base : Int) ∧ 0 ≤ r.idx h ∧
        r.idx h < (r.Attributes.length : Int))) := by
  have hs : tooSmall = -1 := rfl
  have hl : tooLarge = -2 := rfl
  rw [hs, hl]
  rcases lt_or_le h (r.Base : Int) with hlt | hlo
  · have e := idx_of_lt r h hlt
    rw [hs] at e
    refine ⟨⟨fun _ => ?_, fun _ => ?_⟩, ⟨fun _ => ?_, fun _ => ?_⟩, fun _ _ => ?_, ?_⟩ <;>
      omega
  · rcases lt_or_le h ((r.Base : Int) + (r.Attributes.length : Int)) with hhi | hge
    · have e := idx_of_mem r h hlo hhi
      refine ⟨⟨fun _ => ?_, fun _ => ?_⟩, ⟨fun _ => ?_, fun _ => ?_⟩, fun _ _ => ?_, ?_⟩ <;>
        omega
    · have e := idx_of_ge r h hge
      rw [hl] at e
      refine ⟨⟨fun _ => ?_, fun _ => ?_⟩, ⟨fun _ => ?_, fun _ => ?_⟩, fun _ _ => ?_, ?_⟩ <;>
        omega

/-- Witness of C6 on the table with handles `1, 2, 3`: handle `0` is too small, handle
`4` is too large and handle `2` has index `1`. -/
theorem idx_three_valued_witness :
    table3.idx 0 = tooSmall ∧ table3.idx 4 = tooLarge ∧
    (table3.idx 2 = 2 - (table3.Base : Int) ∧ 0 ≤ table3.idx 2 ∧
      table3.idx 2 < (table3.Attributes.length : Int)) :=
  ⟨(idx_three_valued table3 0).1.2 (by decide),
   (idx_three_valued table3 4).2.1.2 (by decide),
   (idx_three_valued table3 2).2.2.1 (by decide) (by decide)⟩

/-! ## Exact lookup -/

theorem at_of_lt (r : Range) (h : Nat) (hlt : h < r.Base) :
    r.at h = some (Attribute.zero, false) := by
  have e : r.idx (h : Int) = tooSmall := idx_of_lt r h (by exact_mod_cast hlt)
  simp [Range.at, e, tooSmall]

theorem at_of_ge (r : Range) (h : Nat) (hge : r.Base + r.Attributes.length ≤ h) :
    r.at h = some (Attribute.zero, false) := by
  have e : r.idx (h : Int) = tooLarge := idx_of_ge r h (by exact_mod_cast hge)
  simp [Range.at, e, tooLarge]

theorem at_of_mem (r : Range) (h : Nat) (hlo : r.Base ≤ h)
    (hhi : h < r.Base + r.Attributes.length) :
    ∃ a, r.Attributes[h - r.Base]? = some a ∧ r.at h = some (a, true) := by
  have e : r.idx (h : Int) = (h : Int) - (r.Base : Int) :=
    idx_of_mem r h (by exact_mod_cast hlo) (by exact_mod_cast hhi)
  have hn : ¬ ((h : Int) - (r.Base : Int) < 0) := by omega
  have hp : (0 : Int) ≤ (h : Int) - (r.Base : Int) := by omega
  have ht : ((h : Int) - (r.Base : Int)).toNat = h - r.Base := by omega
  have hb : h - r.Base < r.Attributes.length := by omega
  refine ⟨r.Attributes[h - r.Base], ?_, ?_⟩
  · exact List.getElem?_eq_getElem hb
  · simp [Range.at, e, hn, index, hp, ht, List.getElem?_eq_getElem hb]

/-- C1: exact lookup resolves every handle `h` in one of three ways and never panics:
not found with the zero Attribute when `h < Base`, not found with the zero Attribute
when `h ≥ Base + len(Attributes)`, and found with `Attributes[h - Base]` when
`Base ≤ h < Base + len(Attributes)`. -/
theorem at_three_cases (r : Range) (h : Nat) :
    (h < r.Base → r.at h = some (Attribute.zero, false)) ∧
    (r.Base + r.Attributes.length ≤ h → r.at h = some (Attribute.zero, false)) ∧
    (r.Base ≤ h → h < r.Base + r.Attributes.length →
      ∃ a, r.Attributes[h - r.Base]? = some a ∧ r.at h = some (a, true)) ∧
    (r.at h).isSome = true := by
  refine ⟨at_of_lt r h, at_of_ge r h, at_of_mem r h, ?_⟩
  rcases Nat.lt_or_ge h r.Base with hlt | hlo
  · rw [at_of_lt r h hlt]; rfl
  · rcases Nat.lt_or_ge h (r.Base + r.Attributes.length) with hhi | hge
    · obtain ⟨a, _, ha⟩ := at_of_mem r h hlo hhi
      rw [ha]; rfl
    · rw [at_of_ge r h hge]; rfl

/-- Witness of C1 on the table with handles `1, 2, 3`: handles `0` and `4` are not
found and handle `2` is found at index `1`. -/
theorem at_three_cases_witness :
    table3.at 0 = some (Attribute.zero, false) ∧
    table3.at 4 = some (Attribute.zero, false) ∧
    (∃ a, table3.Attributes[2 - table3.Base]? = some a ∧ table3.at 2 = some (a, true)) :=
  ⟨(at_three_cases table3 0).1 (by decide),
   (at_three_cases table3 4).2.1 (by decide),
   (at_three_cases table3 2).2.2.1 (by decide) (by decide)⟩

/-! ## The contiguity invariant -/

theorem contiguousFrom_getElem? (l : List Attribute) :
    ∀ (b i : Nat) (a : Attribute), contiguousFrom b l = true → l[i]? = some a →
      a.Handle = b + i := by
  induction l with
  | nil => intro b i a _ h; simp at h
  | cons x t ih =>
    intro b i a hc h
    simp only [contiguousFrom, Bool.and_eq_true, beq_iff_eq] at hc
    cases i with
    | zero =>
      simp only [List.getElem?_cons_zero, Option.some.injEq] at h
      rw [← h]; simpa using hc.1
    | succ j =>
      simp only [List.getElem?_cons_succ] at h
      have := ih (b + 1) j a hc.2 h
      omega

theorem contiguousFrom_of_getElem? (l : List Attribute) :
    ∀ b : Nat, (∀ (i : Nat) (a : Attribute), l[i]? = some a → a.Handle = b + i) →
      contiguousFrom b l = true := by
  induction l with
  | nil => intro b _; rfl
  | cons x t ih =>
    intro b h
    simp only [contiguousFrom, Bool.and_eq_true, beq_iff_eq]
    constructor
    · simpa using h 0 x (by simp)
    · apply ih
      intro i a hi
      have := h (i + 1) a (by simpa using hi)
      omega

/-- The invariant `Range.contiguous` says that the attribute at every index `i` has
handle `Base + i`. -/
theorem contiguous_iff (r : Range) :
    r.contiguous = true ↔
      ∀ (i : Nat) (a : Attribute), r.Attributes[i]? = some a → a.Handle = r.Base + i :=
  ⟨fun hc i a h => contiguousFrom_getElem? r.Attributes r.Base i a hc h,
   contiguousFrom_of_getElem? r.Attributes r.Base⟩

theorem inInterval_contiguous (l : List Attribute) :
    ∀ (b start endh : Nat), contiguousFrom b l = true →
      inInterval start endh l = (l.take (endh + 1 - b)).drop (start - b) := by
  induction l with
  | nil => intro b start endh _; simp [inInterval]
  | cons x t ih =>
    intro b start endh hc
    simp only [contiguousFrom, Bool.and_eq_true, beq_iff_eq] at hc
    obtain ⟨hx, ht⟩ := hc
    have iht := ih (b + 1) start endh ht
    simp only [inInterval] at iht ⊢
    rw [List.filter_cons, iht, hx]
    by_cases he : b ≤ endh
    · have e1 : endh + 1 - b = (endh + 1 - (b + 1)) + 1 := by omega
      rw [e1, List.take_succ_cons]
      by_cases hs : start ≤ b
      · have e2 : start - b = 0 := by omega
        have e3 : start - (b + 1) = 0 := by omega
        simp [hs, he, e2, e3]
      · have e2 : start - b = (start - (b + 1)) + 1 := by omega
        rw [e2, List.drop_succ_cons]
        simp [hs]
    · have e1 : endh + 1 - b = 0 := by omega
      have e2 : endh + 1 - (b + 1) = 0 := by omega
      simp [he, e1, e2]

/-! ## The sub-range query -/

theorem sliceOperands_eq (r : Range) (start endh : Nat) :
    r.sliceOperands start endh =
      if r.Base + r.Attributes.length ≤ start then none
      else if endh + 1 < r.Base then none
      else some (((start - r.Base : Nat) : Int),
        ((min (endh + 1 - r.Base) r.Attributes.length : Nat) : Int)) := by
  have hs : tooSmall = -1 := rfl
  have hl : tooLarge = -2 := rfl
  unfold Range.sliceOperands
  by_cases h1 : r.Base + r.Attributes.length ≤ start
  · have e := idx_of_ge r (start : Int) (by exact_mod_cast h1)
    simp [e, h1]
  · have hstart : (if r.idx (start : Int) = tooSmall then (0 : Int) else r.idx (start : Int))
        = ((start - r.Base : Nat) : Int) ∧ r.idx (start : Int) ≠ tooLarge := by
      rcases Nat.lt_or_ge start r.Base with hlt | hge
      · have e := idx_of_lt r (start : Int) (by exact_mod_cast hlt)
        rw [e, hs, hl]
        constructor
        · simp; omega
        · decide
      · have e := idx_of_mem r (start : Int) (by exact_mod_cast hge) (by omega)
        rw [e, hs, hl]
        constructor
        · rw [if_neg (by omega)]; omega
        · omega
    have hend1 : ((endh : Int) + 1) = ((endh + 1 : Nat) : Int) := by push_cast; rfl
    by_cases h2 : endh + 1 < r.Base
    · have e := idx_of_lt r ((endh : Int) + 1) (by omega)
      simp [hstart.2, e, h1, h2]
    · have hend : (if r.idx ((endh : Int) + 1) = tooLarge then (r.Attributes.length : Int)
          else r.idx ((endh : Int) + 1))
          = ((min (endh + 1 - r.Base) r.Attributes.length : Nat) : Int) ∧
          r.idx ((endh : Int) + 1) ≠ tooSmall := by
        rcases Nat.lt_or_ge (endh + 1) (r.Base + r.Attributes.length) with hlt | hge
        · have e := idx_of_mem r ((endh : Int) + 1) (by omega) (by omega)
          rw [e, hs, hl]
          constructor
          · rw [if_neg (by omega)]; omega
          · omega
        · have e := idx_of_ge r ((endh : Int) + 1) (by omega)
          rw [e, hs, hl]
          constructor
          · simp; omega
          · decide
      simp only [hstart.2, hend.2, h1, h2, if_false, hstart.1, hend.1]

theorem subrange_eq (r : Range) (start endh : Nat) :
    r.subrange start endh =
      if r.Base + r.Attributes.length ≤ start then some []
      else if endh + 1 < r.Base then some []
      else if start - r.Base ≤ min (endh + 1 - r.Base) r.Attributes.length then
        some ((r.Attributes.take (endh + 1 - r.Base)).drop (start - r.Base))
      else none := by
  unfold Range.subrange
  rw [sliceOperands_eq]
  by_cases h1 : r.Base + r.Attributes.length ≤ start
  · simp [h1]
  · by_cases h2 : endh + 1 < r.Base
    · simp [h1, h2]
    · simp only [h1, h2, if_false, slice]
      by_cases h3 : start - r.Base ≤ min (endh + 1 - r.Base) r.Attributes.length
      · have hc : (0 : Int) ≤ ((start - r.Base : Nat) : Int) ∧
            ((start - r.Base : Nat) : Int) ≤
              ((min (endh + 1 - r.Base) r.Attributes.length : Nat) : Int) ∧
            ((min (endh + 1 - r.Base) r.Attributes.length : Nat) : Int) ≤
              (r.Attributes.length : Int) := by
          refine ⟨by omega, by exact_mod_cast h3, ?_⟩
          exact_mod_cast Nat.min_le_right _ _
        have ht : r.Attributes.take (min (endh + 1 - r.Base) r.Attributes.length) =
            r.Attributes.take (endh + 1 - r.Base) := by
          rw [List.take_eq_take]; simp
        rw [if_pos hc, if_pos h3, Int.toNat_ofNat, Int.toNat_ofNat, ht]
      · have hc : ¬ ((0 : Int) ≤ ((start - r.Base : Nat) : Int) ∧
            ((start - r.Base : Nat) : Int) ≤
              ((min (endh + 1 - r.Base) r.Attributes.length : Nat) : Int) ∧
            ((min (endh + 1 - r.Base) r.Attributes.length : Nat) : Int) ≤
              (r.Attributes.length : Int)) := by
          intro hc
          exact h3 (by exact_mod_cast hc.2.1)
        rw [if_neg hc, if_neg h3]

theorem subrange_of_ok (r : Range) (start endh : Nat)
    (h : start ≤ endh + 1 ∨ endh + 1 < r.Base ∨ r.Base + r.Attributes.length ≤ start) :
    r.subrange start endh =
      some ((r.Attributes.take (endh + 1 - r.Base)).drop (start - r.Base)) := by
  rw [subrange_eq]
  by_cases h1 : r.Base + r.Attributes.length ≤ start
  · rw [if_pos h1]
    congr 1
    symm
    apply List.drop_eq_nil_of_le
    rw [List.length_take]
    omega
  · rw [if_neg h1]
    by_cases h2 : endh + 1 < r.Base
    · rw [if_pos h2]
      have e : endh + 1 - r.Base = 0 := by omega
      simp [e]
    · rw [if_neg h2]
      have h3 : start - r.Base ≤ min (endh + 1 - r.Base) r.Attributes.length := by
        rcases h with h | h | h
        · rw [Nat.le_min]; omega
        · exact absurd h h2
        · exact absurd h h1
      rw [if_pos h3]

/-- C2: on a table that satisfies the contiguity invariant, `subrange(start, end)` with
`start ≤ end` returns without panicking exactly the attributes whose handle lies in the
closed interval `[start, end]`, in table order; an attribute of the table whose handle
is `end` is part of the result. -/
theorem subrange_closed_interval (r : Range) (start endh : Nat)
    (hc : r.contiguous = true) (hse : start ≤ endh) :
    r.subrange start endh = some (inInterval start endh r.Attributes) ∧
    ∀ a, a ∈ r.Attributes → a.Handle = endh → a ∈ inInterval start endh r.Attributes := by
  constructor
  · rw [subrange_of_ok r start endh (Or.inl (by omega)),
      inInterval_contiguous r.Attributes r.Base start endh hc]
  · intro a ha hh
    simp only [inInterval, List.mem_filter, Bool.and_eq_true, decide_eq_true_eq]
    exact ⟨ha, by omega, by omega⟩

/-- Witness of C2 on the table with handles `1, 2, 3` and the interval `[2, 3]`. -/
theorem subrange_closed_interval_witness :
    table3.subrange 2 3 = some (inInterval 2 3 table3.Attributes) ∧
    ∀ a, a ∈ table3.Attributes → a.Handle = 3 → a ∈ inInterval 2 3 table3.Attributes :=
  subrange_closed_interval table3 2 3 (by decide) (by decide)

/-- C3: the claim is that `subrange` never panics, as its comment in the source says
("does not panic for out-of-range start or end"); the code breaks it.  On the table with
handles `1, 2, 3` the call `subrange(3, 0)`, whose `end = 0` lies below the table,
reaches the slice expression with operands `(2, 0)` and panics, and so do
`subrange(2, 0)` and `subrange(3, 1)`; the reversed pairs `(5, 2)` and `(3, 2)` on the
same table return the empty sequence. -/
theorem subrange_panics_on_reversed :
    table3.sliceOperands 3 0 = some (2, 0) ∧ table3.subrange 3 0 = none ∧
    table3.sliceOperands 2 0 = some (1, 0) ∧ table3.subrange 2 0 = none ∧
    table3.sliceOperands 3 1 = some (2, 1) ∧ table3.subrange 3 1 = none ∧
    table3.subrange 5 2 = some [] ∧ table3.subrange 3 2 = some [] := by
  decide

/-- Where `subrange` is safe: `subrange(start, end)` does not panic whenever
`start ≤ end + 1` (so for every `start ≤ end`, in or out of the range of the table), or
`end + 1 < Base`, or `start ≥ Base + len(Attributes)`; `end + 1` is computed on integers,
so `end = 65535` is covered.  In all these cases the operands of the slice expression,
when it is reached, satisfy `0 ≤ startidx ≤ endidx ≤ len(Attributes)`. -/
theorem subrange_no_panic (r : Range) (start endh : Nat)
    (h : start ≤ endh + 1 ∨ endh + 1 < r.Base ∨ r.Base + r.Attributes.length ≤ start) :
    (∃ l, r.subrange start endh = some l) ∧
    ∀ startidx endidx : Int, r.sliceOperands start endh = some (startidx, endidx) →
      0 ≤ startidx ∧ startidx ≤ endidx ∧ endidx ≤ (r.Attributes.length : Int) := by
  constructor
  · exact ⟨_, subrange_of_ok r start endh h⟩
  · intro startidx endidx hop
    rw [sliceOperands_eq] at hop
    by_cases h1 : r.Base + r.Attributes.length ≤ start
    · simp [h1] at hop
    · by_cases h2 : endh + 1 < r.Base
      · simp [h1, h2] at hop
      · simp only [h1, h2, if_false, Option.some.injEq, Prod.mk.injEq] at hop
        obtain ⟨e1, e2⟩ := hop
        have hm := Nat.min_le_right (endh + 1 - r.Base) r.Attributes.length
        have hk : start - r.Base ≤ min (endh + 1 - r.Base) r.Attributes.length := by
          rw [Nat.le_min]; omega
        rw [← e1, ← e2]
        refine ⟨by omega, by exact_mod_cast hk, by exact_mod_cast hm⟩

/-- The query `subrange(65534, 65535)` on the table with handles `65533, 65534, 65535`
does not panic: `end + 1 = 65536` does not wrap. -/
theorem subrange_no_panic_witness :
    (∃ l, tableTop.subrange 65534 65535 = some l) ∧
    ∀ startidx endidx : Int, tableTop.sliceOperands 65534 65535 = some (startidx, endidx) →
      0 ≤ startidx ∧ startidx ≤ endidx ∧ endidx ≤ (tableTop.Attributes.length : Int) :=
  subrange_no_panic tableTop 65534 65535 (Or.inl (by decide))

/-- Counterexample to C7 as stated: the Range with base `1` whose single attribute has
handle `7` resolves handle `1` to index `0`, and `at(1)` returns an attribute whose
handle is `7`, not `1`. -/
theorem at_handle_differs :
    tableOff.Base ≤ 1 ∧ 1 < tableOff.Base + tableOff.Attributes.length ∧
    tableOff.at 1 = some (mkAttr 7, true) ∧ (mkAttr 7).Handle ≠ tableOff.Base + 0 := by
  decide

/-- C7, amended: on a Range that satisfies the contiguity invariant, for every handle
`h` with `Base ≤ h < Base + len(Attributes)` the attribute returned by `at(h)` has
handle `Base + (h - Base)`, that is `h`. -/
theorem at_handle_contiguous (r : Range) (h : Nat) (hc : r.contiguous = true)
    (hlo : r.Base ≤ h) (hhi : h < r.Base + r.Attributes.length) :
    ∃ a, r.at h = some (a, true) ∧ a.Handle = r.Base + (h - r.Base) ∧ a.Handle = h := by
  obtain ⟨a, hget, hat⟩ := at_of_mem r h hlo hhi
  have hh := contiguousFrom_getElem? r.Attributes r.Base (h - r.Base) a hc hget
  exact ⟨a, hat, hh, by omega⟩

/-- Witness of C7 (amended) on the table with handles `1, 2, 3` at handle `2`. -/
theorem at_handle_contiguous_witness :
    ∃ a, table3.at 2 = some (a, true) ∧ a.Handle = table3.Base + (2 - table3.Base) ∧
      a.Handle = 2 :=
  at_handle_contiguous table3 2 (by decide) (by decide) (by decide)

/-- C8: on a table with `n = len(Attributes) ≥ 1` whose last handle `Base + n - 1` is a
16-bit value, `subrange(Base, Base + n - 1)` returns the whole of `Attributes`, in
order. -/
theorem subrange_whole_table (r : Range) (hn : 1 ≤ r.Attributes.length)
    (_h16 : r.Base + r.Attributes.length - 1 < 65536) :
    r.subrange r.Base (r.Base + r.Attributes.length - 1) = some r.Attributes := by
  rw [subrange_of_ok r _ _ (Or.inl (by omega))]
  have e1 : r.Base + r.Attributes.length - 1 + 1 - r.Base = r.Attributes.length := by omega
  simp [e1]

/-- Witness of C8 on the table with handles `65533, 65534, 65535`. -/
theorem subrange_whole_table_witness :
    tableTop.subrange tableTop.Base (tableTop.Base + tableTop.Attributes.length - 1) =
      some tableTop.Attributes :=
  subrange_whole_table tableTop (by decide) (by decide)

/-- C9: when `start ≥ Base + len(Attributes)`, `subrange(start, end)` returns an empty
sequence for every `end`, also for `end < start`. -/
theorem subrange_start_above (r : Range) (start endh : Nat)
    (h : r.Base + r.Attributes.length ≤ start) :
    r.subrange start endh = some [] := by
  rw [subrange_eq, if_pos h]

/-- Witness of C9 on the table with handles `1, 2, 3`: `subrange(Base + len, 65535)`
and, with `end < start`, `subrange(5, 2)` are empty. -/
theorem subrange_start_above_witness :
    table3.subrange (table3.Base + table3.Attributes.length) 65535 = some [] ∧
    table3.subrange 5 2 = some [] :=
  ⟨subrange_start_above table3 (table3.Base + table3.Attributes.length) 65535 (by decide),
   subrange_start_above table3 5 2 (by decide)⟩

/-- C10: on a table with `Base > 0`, for `start ≤ end < Base` the call
`subrange(start, end)` returns an empty sequence and does not panic, both when
`end + 1 < Base` and when `end + 1 = Base`. -/
theorem subrange_below (r : Range) (start endh : Nat) (_hb : 0 < r.Base)
    (hse : start ≤ endh) (he : endh < r.Base) :
    r.subrange start endh = some [] := by
  rw [subrange_of_ok r start endh (Or.inl (by omega))]
  have e1 : start - r.Base = 0 := by omega
  rw [e1, List.drop_zero]
  have e2 : endh + 1 - r.Base = 0 := by omega
  rw [e2, List.take_zero]

/-- Witness of C10 on the table with handles `65533, 65534, 65535`:
`subrange(0, Base - 1)`, where `end + 1 = Base`, and `subrange(0, 7)`, where
`end + 1 < Base`, are empty. -/
theorem subrange_below_witness :
    tableTop.subrange 0 (tableTop.Base - 1) = some [] ∧ tableTop.subrange 0 7 = some [] :=
  ⟨subrange_below tableTop 0 (tableTop.Base - 1) (by decide) (by decide) (by decide),
   subrange_below tableTop 0 7 (by decide) (by decide) (by decide)⟩

/-! ## The response writer -/

theorem roundupsize_ge (n : Nat) : n ≤ roundupsize n := by
  unfold roundupsize
  split
  · rename_i s hs
    have := List.find?_some hs
    simpa using this
  · omega

theorem Buffer_Len_eq (b : Buffer) : b.Len = (b.unread.length : Int) := by
  cases b with
  | nilSlice => rfl
  | slice u o c => simp only [Buffer.Len, Buffer.lenBuf, Buffer.off, Buffer.unread]; omega

theorem Buffer_extend_unread (b : Buffer) (p : List Nat)
    (h : (p.length : Int) ≤ (b.capBuf : Int) - (b.lenBuf : Int)) :
    (b.extend p).unread = b.unread ++ p ∧ (b.extend p).capBuf = b.capBuf ∧
      (b.extend p).off = b.off := by
  cases b with
  | nilSlice =>
    simp only [Buffer.capBuf, Buffer.lenBuf] at h
    have h0 : p.length = 0 := by omega
    have hp : p = [] := List.length_eq_zero.mp h0
    subst hp
    exact ⟨rfl, rfl, rfl⟩
  | slice u o c => exact ⟨rfl, rfl, rfl⟩

theorem Buffer_Reset_spec (b : Buffer) :
    b.Reset.unread = [] ∧ b.Reset.capBuf = b.capBuf ∧ b.Reset.off = 0 ∧ b.Reset.lenBuf = 0 := by
  cases b <;> exact ⟨rfl, rfl, rfl, rfl⟩

theorem Buffer_capBuf_slice (u : List Nat) (o c : Nat) : (Buffer.slice u o c).capBuf = c :=
  rfl

theorem Buffer_unread_slice (u : List Nat) (o c : Nat) : (Buffer.slice u o c).unread = u :=
  rfl

theorem Buffer_reset_or_keep (b : Buffer) :
    (if b.unread.length = 0 ∧ b.off ≠ 0 then b.Reset else b).unread = b.unread ∧
    (if b.unread.length = 0 ∧ b.off ≠ 0 then b.Reset else b).capBuf = b.capBuf := by
  by_cases hr : b.unread.length = 0 ∧ b.off ≠ 0
  · rw [if_pos hr, (Buffer_Reset_spec b).1, (Buffer_Reset_spec b).2.1]
    exact ⟨(List.length_eq_zero.mp hr.1).symm, rfl⟩
  · rw [if_neg hr]
    exact ⟨rfl, rfl⟩

theorem Buffer_isNil_unread (b : Buffer) (h : b.isNil = true) : b.unread = [] := by
  cases b with
  | nilSlice => rfl
  | slice u o c => simp [Buffer.isNil] at h

theorem Buffer_Write_spec (b : Buffer) (p : List Nat) :
    (b.Write p).2 = ((p.length : Int), none) ∧ (b.Write p).1.unread = b.unread ++ p := by
  unfold Buffer.Write
  by_cases h1 : (p.length : Int) ≤ (b.capBuf : Int) - (b.lenBuf : Int)
  · rw [if_pos h1]
    exact ⟨rfl, (Buffer_extend_unread b p h1).1⟩
  · rw [if_neg h1]
    obtain ⟨hu, _⟩ := Buffer_reset_or_keep b
    simp only []
    generalize (if b.unread.length = 0 ∧ b.off ≠ 0 then b.Reset else b) = b1 at hu ⊢
    split_ifs with h2 h3 h4
    · exact ⟨rfl, by rw [(Buffer_extend_unread b1 p h2).1, hu]⟩
    · refine ⟨rfl, ?_⟩
      rw [← hu, Buffer_isNil_unread b1 h3.1]
      rfl
    · exact ⟨rfl, by rw [Buffer_unread_slice, hu]⟩
    · exact ⟨rfl, by rw [Buffer_unread_slice, hu]⟩

theorem Buffer_Write_len_le_cap (b : Buffer) (p : List Nat)
    (h : (p.length : Int) ≤ b.Cap - b.Len) :
    (b.Write p).1.Len ≤ (b.Write p).1.Cap := by
  rw [Buffer_Len_eq, (Buffer_Write_spec b p).2, List.length_append]
  rw [Buffer_Len_eq] at h
  simp only [Buffer.Cap] at h ⊢
  unfold Buffer.Write
  by_cases h1 : (p.length : Int) ≤ (b.capBuf : Int) - (b.lenBuf : Int)
  · rw [if_pos h1, (Buffer_extend_unread b p h1).2.1]
    push_cast; omega
  · rw [if_neg h1]
    obtain ⟨hu, hc⟩ := Buffer_reset_or_keep b
    simp only []
    generalize (if b.unread.length = 0 ∧ b.off ≠ 0 then b.Reset else b) = b1 at hu hc ⊢
    split_ifs with h2 h3 h4
    · rw [(Buffer_extend_unread b1 p h2).2.1, hc]
      push_cast; omega
    · have hm : b.unread.length = 0 := by
        rw [← hu, Buffer_isNil_unread b1 h3.1]; rfl
      have hs : smallBufferSize = 64 := rfl
      have := h3.2
      rw [Buffer_capBuf_slice]
      push_cast; omega
    · rw [Buffer_capBuf_slice, hc]
      push_cast; omega
    · rw [Buffer_capBuf_slice]
      simp only [growSliceCap]
      have hr := roundupsize_ge
        (if b.unread.length + (b1.off + p.length) < 2 * (b1.capBuf - b1.off)
          then 2 * (b1.capBuf - b1.off) else b.unread.length + (b1.off + p.length))
      split_ifs at hr ⊢ <;> push_cast <;> omega

theorem Write_of_short (w : ResponseWriter) (b : List Nat)
    (h : ¬ (b.length : Int) ≤ w.Cap - w.Len) :
    w.Write b = (w, 0, some GoError.ErrShortWrite) := by
  simp only [ResponseWriter.Cap, ResponseWriter.Len] at h
  have hg : (b.length : Int) > w.buf.Cap - w.buf.Len := by omega
  simp [ResponseWriter.Write, hg]

theorem Write_of_accepted (w : ResponseWriter) (b : List Nat)
    (h : (b.length : Int) ≤ w.Cap - w.Len) :
    (w.Write b).2 = ((b.length : Int), none) ∧ (w.Write b).1.content = w.content ++ b ∧
      (w.Write b).1.Len ≤ (w.Write b).1.Cap := by
  simp only [ResponseWriter.Cap, ResponseWriter.Len] at h
  have hg : ¬ ((b.length : Int) > w.buf.Cap - w.buf.Len) := by omega
  simp only [ResponseWriter.Write, if_neg hg, ResponseWriter.content, ResponseWriter.Len,
    ResponseWriter.Cap]
  exact ⟨(Buffer_Write_spec w.buf b).1, (Buffer_Write_spec w.buf b).2,
    Buffer_Write_len_le_cap w.buf b h⟩

theorem Write_of_fits (w : ResponseWriter) (b : List Nat)
    (h : (b.length : Int) ≤ w.Cap - w.Len) (hoff : w.buf.off = 0) :
    w.Write b = ({ buf := w.buf.extend b }, (b.length : Int), none) := by
  simp only [ResponseWriter.Cap, ResponseWriter.Len] at h
  have hg : ¬ ((b.length : Int) > w.buf.Cap - w.buf.Len) := by omega
  have hf : (b.length : Int) ≤ (w.buf.capBuf : Int) - (w.buf.lenBuf : Int) := by
    simp only [Buffer.Cap, Buffer.Len, hoff] at h
    omega
  simp only [ResponseWriter.Write, if_neg hg, Buffer.Write, if_pos hf]

/-- C4: `Write` is all-or-nothing.  `Write(b)` returns a nil error exactly when
`len(b) ≤ Cap() - Len()`.  In that case it returns `len(b)`, the content becomes the old
content followed by `b` and `Len` grows by `len(b)`.  Otherwise it returns
`(0, io.ErrShortWrite)` and leaves the writer unchanged. -/
theorem Write_all_or_nothing (w : ResponseWriter) (b : List Nat) :
    ((w.Write b).2.2 = none ↔ (b.length : Int) ≤ w.Cap - w.Len) ∧
    ((b.length : Int) ≤ w.Cap - w.Len →
      (w.Write b).2.1 = (b.length : Int) ∧ (w.Write b).2.2 = none ∧
      (w.Write b).1.content = w.content ++ b ∧
      (w.Write b).1.Len = w.Len + (b.length : Int)) ∧
    (¬ (b.length : Int) ≤ w.Cap - w.Len →
      w.Write b = (w, 0, some GoError.ErrShortWrite)) := by
  refine ⟨?_, ?_, Write_of_short w b⟩
  · by_cases h : (b.length : Int) ≤ w.Cap - w.Len
    · have ha := (Write_of_accepted w b h).1
      simp [ha, h]
    · rw [Write_of_short w b h]; simp [h]
  · intro h
    obtain ⟨ha, hc, _⟩ := Write_of_accepted w b h
    refine ⟨by rw [ha], by rw [ha], hc, ?_⟩
    have hl : ∀ v : ResponseWriter, v.Len = (v.content.length : Int) :=
      fun v => Buffer_Len_eq v.buf
    rw [hl, hl, hc, List.length_append]
    push_cast; rfl

/-- Witness of C4 on a writer of capacity `4`: writing `[1, 2, 3]` to the empty writer
succeeds, and writing `[4, 5]` to the writer that holds `[1, 2, 3]` is rejected. -/
theorem Write_all_or_nothing_witness :
    ((writer4.Write [1, 2, 3]).2.1 = 3 ∧ (writer4.Write [1, 2, 3]).2.2 = none ∧
      (writer4.Write [1, 2, 3]).1.content = writer4.content ++ [1, 2, 3] ∧
      (writer4.Write [1, 2, 3]).1.Len = writer4.Len + 3) ∧
    (writer4.Write [1, 2, 3]).1.Write [4, 5] =
      ((writer4.Write [1, 2, 3]).1, 0, some GoError.ErrShortWrite) :=
  ⟨(Write_all_or_nothing writer4 [1, 2, 3]).2.1 (by decide),
   (Write_all_or_nothing (writer4.Write [1, 2, 3]).1 [4, 5]).2.2 (by decide)⟩

theorem step_len_le_cap (w : ResponseWriter) (op : Op) (h : w.Len ≤ w.Cap) :
    (w.step op).Len ≤ (w.step op).Cap := by
  cases op with
  | write b =>
    simp only [ResponseWriter.step]
    by_cases hf : (b.length : Int) ≤ w.Cap - w.Len
    · exact (Write_of_accepted w b hf).2.2
    · rw [Write_of_short w b hf]
      exact h
  | reset =>
    obtain ⟨_, _, ho, hl⟩ := Buffer_Reset_spec w.buf
    simp only [ResponseWriter.step, ResponseWriter.Reset, ResponseWriter.Len,
      ResponseWriter.Cap, Buffer.Len, Buffer.Cap, ho, hl]
    omega

/-- C5: starting from a writer with `Len() ≤ Cap()`, after every finite sequence of
`Write` calls (accepted or rejected) and `Reset` calls, `Len() ≤ Cap()` holds. -/
theorem run_len_le_cap (w : ResponseWriter) (ops : List Op) (h : w.Len ≤ w.Cap) :
    (w.run ops).Len ≤ (w.run ops).Cap := by
  induction ops generalizing w with
  | nil => exact h
  | cons op ops ih => exact ih (w.step op) (step_len_le_cap w op h)

/-- Witness of C5 on the empty writer of capacity `4`: an accepted write, a rejected
write, a reset and a write of the whole capacity. -/
theorem run_len_le_cap_witness :
    (writer4.run [Op.write [1, 2, 3], Op.write [4, 5], Op.reset, Op.write [1, 2, 3, 4]]).Len ≤
    (writer4.run [Op.write [1, 2, 3], Op.write [4, 5], Op.reset, Op.write [1, 2, 3, 4]]).Cap :=
  run_len_le_cap writer4 _ (by decide)

/-! ## Relations between queries -/

theorem take_drop_split {α : Type} (l : List α) (s m e : Nat) (hsm : s ≤ m) (hme : m ≤ e) :
    (l.take e).drop s = (l.take m).drop s ++ (l.take e).drop m := by
  rw [List.drop_take, List.drop_take, List.drop_take]
  have e1 : e - s = (m - s) + (e - m) := by omega
  have e2 : List.drop m l = List.drop (m - s) (List.drop s l) := by
    rw [List.drop_drop]; congr 1; omega
  rw [e1, List.take_add, e2]

/-- C11: on a non-empty table whose handles fit in 16 bits, for `start ≤ end` with
`start ≤ Base + len - 1` and `end ≥ Base`, `subrange(start, end)` equals
`subrange(max(start, Base), min(end, Base + len - 1))`.  With base `1` and three
attributes, `subrange(0, 2)` is the attributes at indices `0, 1`, `subrange(2, 0xFFFF)`
those at indices `1, 2`, and `subrange(4, 5)` is empty. -/
theorem subrange_clamps :
    (∀ (r : Range) (start endh : Nat), 1 ≤ r.Attributes.length →
      r.Base + r.Attributes.length ≤ 65536 → start ≤ endh →
      start ≤ r.Base + r.Attributes.length - 1 → r.Base ≤ endh →
      r.subrange start endh =
        r.subrange (max start r.Base) (min endh (r.Base + r.Attributes.length - 1))) ∧
    (∀ a0 a1 a2 : Attribute,
      (tableOf3 a0 a1 a2).subrange 0 2 = some [a0, a1] ∧
      (tableOf3 a0 a1 a2).subrange 2 65535 = some [a1, a2] ∧
      (tableOf3 a0 a1 a2).subrange 4 5 = some []) := by
  constructor
  · intro r start endh hn _ hse hs he
    rw [subrange_of_ok r start endh (Or.inl (by omega)),
      subrange_of_ok r (max start r.Base) (min endh (r.Base + r.Attributes.length - 1))
        (Or.inl (by omega))]
    have e1 : max start r.Base - r.Base = start - r.Base := by omega
    have e2 : r.Attributes.take (min endh (r.Base + r.Attributes.length - 1) + 1 - r.Base) =
        r.Attributes.take (endh + 1 - r.Base) := by
      rw [List.take_eq_take]; omega
    rw [e1, e2]
  · intro a0 a1 a2
    refine ⟨?_, ?_, ?_⟩
    · rw [subrange_of_ok _ _ _ (Or.inl (by omega))]; rfl
    · rw [subrange_of_ok _ _ _ (Or.inl (by omega))]; rfl
    · rw [subrange_of_ok _ _ _ (Or.inl (by omega))]; rfl

/-- Witness of C11 on the table with handles `1, 2, 3`: `subrange(0, 65535)` equals
`subrange(1, 3)`. -/
theorem subrange_clamps_witness :
    table3.subrange 0 65535 =
      table3.subrange (max 0 table3.Base)
        (min 65535 (table3.Base + table3.Attributes.length - 1)) :=
  subrange_clamps.1 table3 0 65535 (by decide) (by decide) (by decide) (by decide)
    (by decide)

/-- C14: `subrange(start, end)` panics, the slice expression being reached with
`startidx > endidx`, exactly when `Base ≤ end + 1 < start < Base + len(Attributes)`; for
every other pair it returns, and a result returned for `end < start` is empty. -/
theorem subrange_panics_iff (r : Range) (start endh : Nat) :
    (r.subrange start endh = none ↔
      r.Base ≤ endh + 1 ∧ endh + 1 < start ∧ start < r.Base + r.Attributes.length) ∧
    (r.subrange start endh = none ↔
      ∃ startidx endidx : Int,
        r.sliceOperands start endh = some (startidx, endidx) ∧ startidx > endidx) ∧
    (∀ l, r.subrange start endh = some l → endh < start → l = []) := by
  have hsub := subrange_eq r start endh
  have hop := sliceOperands_eq r start endh
  by_cases h1 : r.Base + r.Attributes.length ≤ start
  · rw [if_pos h1] at hsub hop
    rw [hsub, hop]
    refine ⟨⟨fun h => by simp at h, fun h => by omega⟩,
      ⟨fun h => by simp at h, fun h => by simp at h⟩, ?_⟩
    intro l hl _
    simpa using hl.symm
  · rw [if_neg h1] at hsub hop
    by_cases h2 : endh + 1 < r.Base
    · rw [if_pos h2] at hsub hop
      rw [hsub, hop]
      refine ⟨⟨fun h => by simp at h, fun h => by omega⟩,
        ⟨fun h => by simp at h, fun h => by simp at h⟩, ?_⟩
      intro l hl _
      simpa using hl.symm
    · rw [if_neg h2] at hsub hop
      by_cases h3 : start - r.Base ≤ min (endh + 1 - r.Base) r.Attributes.length
      · rw [if_pos h3] at hsub
        rw [hsub, hop]
        rw [Nat.le_min] at h3
        refine ⟨⟨fun h => by simp at h, fun h => by omega⟩,
          ⟨fun h => by simp at h, ?_⟩, ?_⟩
        · rintro ⟨lo, hi, he, hlt⟩
          simp only [Option.some.injEq, Prod.mk.injEq] at he
          omega
        · intro l hl hlt
          simp only [Option.some.injEq] at hl
          rw [← hl]
          apply List.drop_eq_nil_of_le
          rw [List.length_take]
          omega
      · rw [if_neg h3] at hsub
        rw [hsub, hop]
        rw [Nat.le_min] at h3
        refine ⟨⟨fun _ => by omega, fun _ => rfl⟩, ⟨fun _ => ⟨_, _, rfl, ?_⟩, fun _ => rfl⟩, ?_⟩
        · omega
        · intro l hl; simp at hl

/-- Witness of C14 on the table with handles `1, 2, 3`: `subrange(3, 1)` panics and
whatever `subrange(3, 2)`, with `end < start`, returns is empty. -/
theorem subrange_panics_iff_witness :
    table3.subrange 3 1 = none ∧ (∀ l, table3.subrange 3 2 = some l → l = []) :=
  ⟨(subrange_panics_iff table3 3 1).1.2 (by decide),
   fun l hl => (subrange_panics_iff table3 3 2).2.2 l hl (by decide)⟩

/-- C15: exact lookup and the one-handle query agree: when `at(h)` returns `(a, true)`,
`subrange(h, h)` is the one-element sequence `[a]`, and when `at(h)` returns not found,
`subrange(h, h)` is empty. -/
theorem at_subrange_agree (r : Range) (h : Nat) :
    (∀ a, r.at h = some (a, true) → r.subrange h h = some [a]) ∧
    (∀ a, r.at h = some (a, false) → r.subrange h h = some []) := by
  have hsub := subrange_of_ok r h h (Or.inl (by omega))
  rcases Nat.lt_or_ge h r.Base with hlt | hlo
  · have hat := at_of_lt r h hlt
    have e1 : h + 1 - r.Base = 0 := by omega
    rw [e1, List.take_zero, List.drop_nil] at hsub
    rw [hat, hsub]
    exact ⟨fun a ha => by simp at ha, fun _ _ => rfl⟩
  · rcases Nat.lt_or_ge h (r.Base + r.Attributes.length) with hhi | hge
    · obtain ⟨a, hget, hat⟩ := at_of_mem r h hlo hhi
      have e1 : h + 1 - r.Base = (h - r.Base) + 1 := by omega
      have hb : h - r.Base < r.Attributes.length := by omega
      have hdt : (r.Attributes.take (h + 1 - r.Base)).drop (h - r.Base) = [a] := by
        rw [e1, List.drop_take]
        have e2 : h - r.Base + 1 - (h - r.Base) = 1 := by omega
        rw [e2, List.drop_eq_getElem_cons hb, List.take_succ_cons, List.take_zero]
        rw [List.getElem?_eq_getElem hb] at hget
        simpa using hget
      rw [hat, hsub, hdt]
      refine ⟨fun a' ha => ?_, fun a' ha => by simp at ha⟩
      simp only [Option.some.injEq, Prod.mk.injEq, and_true] at ha
      rw [ha]
    · have hat := at_of_ge r h hge
      have hnil : (r.Attributes.take (h + 1 - r.Base)).drop (h - r.Base) = [] := by
        apply List.drop_eq_nil_of_le
        rw [List.length_take]
        omega
      rw [hat, hsub, hnil]
      exact ⟨fun a ha => by simp at ha, fun _ _ => rfl⟩

/-- Witness of C15 on the table with handles `1, 2, 3`: handle `2` is found and
`subrange(2, 2)` is that attribute alone; handle `0` is not found and `subrange(0, 0)` is
empty. -/
theorem at_subrange_agree_witness :
    table3.subrange 2 2 = some [mkAttr 2] ∧ table3.subrange 0 0 = some [] :=
  ⟨(at_subrange_agree table3 2).1 (mkAttr 2) (by decide),
   (at_subrange_agree table3 0).2 Attribute.zero (by decide)⟩

/-- C16: for `start ≤ mid < end` the queries `subrange(start, mid)` and
`subrange(mid + 1, end)` both return, and their concatenation is the result of
`subrange(start, end)`. -/
theorem subrange_adjacent (r : Range) (start mid endh : Nat)
    (hsm : start ≤ mid) (hme : mid < endh) :
    ∃ l1 l2, r.subrange start mid = some l1 ∧ r.subrange (mid + 1) endh = some l2 ∧
      r.subrange start endh = some (l1 ++ l2) := by
  refine ⟨_, _, subrange_of_ok r start mid (Or.inl (by omega)),
    subrange_of_ok r (mid + 1) endh (Or.inl (by omega)), ?_⟩
  rw [subrange_of_ok r start endh (Or.inl (by omega))]
  congr 1
  exact take_drop_split r.Attributes (start - r.Base) (mid + 1 - r.Base) (endh + 1 - r.Base)
    (by omega) (by omega)

/-- Witness of C16 on the table with handles `1, 2, 3`, split at `mid = 1` of the
interval `[0, 65535]`. -/
theorem subrange_adjacent_witness :
    ∃ l1 l2, table3.subrange 0 1 = some l1 ∧ table3.subrange (1 + 1) 65535 = some l2 ∧
      table3.subrange 0 65535 = some (l1 ++ l2) :=
  subrange_adjacent table3 0 1 65535 (by decide) (by decide)

/-! ## Reset, traces and the capacity of the writer -/

/-- C12: after `Reset()` the length is `0`, the content is empty and `Cap()` is what it
was before the call. -/
theorem Reset_clears (w : ResponseWriter) :
    w.Reset.Len = 0 ∧ w.Reset.content = [] ∧ w.Reset.Cap = w.Cap := by
  obtain ⟨hu, hc, ho, hl⟩ := Buffer_Reset_spec w.buf
  simp only [ResponseWriter.Reset, ResponseWriter.Len, ResponseWriter.Cap,
    ResponseWriter.content, Buffer.Len, Buffer.Cap]
  rw [hu, hc, ho, hl]
  exact ⟨rfl, rfl, rfl⟩

/-- C13: on the empty writer of capacity `c`, a `Write` of `n ≤ c` bytes succeeds and
`Len` becomes `n`; a following `Write` of `m` bytes with `n + m > c` fails with
`io.ErrShortWrite`, writes nothing and leaves `Len` at `n`; and after `Reset` a `Write`
of exactly `c` bytes succeeds and `Len` becomes `c`. -/
theorem writer_trace (c : Nat) (b1 b2 b3 : List Nat) (h1 : b1.length ≤ c)
    (h2 : c < b1.length + b2.length) (h3 : b3.length = c) :
    ((emptyWriter c).Write b1).2 = ((b1.length : Int), none) ∧
    ((emptyWriter c).Write b1).1.Len = (b1.length : Int) ∧
    (((emptyWriter c).Write b1).1.Write b2).2 = (0, some GoError.ErrShortWrite) ∧
    (((emptyWriter c).Write b1).1.Write b2).1.Len = (b1.length : Int) ∧
    ((((emptyWriter c).Write b1).1.Write b2).1.Reset.Write b3).2 = ((c : Int), none) ∧
    ((((emptyWriter c).Write b1).1.Write b2).1.Reset.Write b3).1.Len = (c : Int) := by
  have f1 : (emptyWriter c).Write b1 = ({ buf := .slice b1 0 c }, (b1.length : Int), none) := by
    rw [Write_of_fits (emptyWriter c) b1 _ rfl]
    · rfl
    · simp only [emptyWriter, ResponseWriter.Cap, ResponseWriter.Len, Buffer.Cap, Buffer.Len,
        Buffer.capBuf, Buffer.lenBuf, Buffer.off, List.length_nil]
      omega
  have f2 : (ResponseWriter.mk (.slice b1 0 c)).Write b2 =
      ({ buf := .slice b1 0 c }, 0, some GoError.ErrShortWrite) := by
    rw [Write_of_short]
    simp only [ResponseWriter.Cap, ResponseWriter.Len, Buffer.Cap, Buffer.Len,
      Buffer.capBuf, Buffer.lenBuf, Buffer.off]
    omega
  have f3 : (ResponseWriter.mk (.slice b1 0 c)).Reset.Write b3 =
      ({ buf := .slice b3 0 c }, (b3.length : Int), none) := by
    rw [Write_of_fits (ResponseWriter.mk (.slice b1 0 c)).Reset b3 _ rfl]
    · rfl
    · simp only [ResponseWriter.Reset, Buffer.Reset, ResponseWriter.Cap, ResponseWriter.Len,
        Buffer.Cap, Buffer.Len, Buffer.capBuf, Buffer.lenBuf, Buffer.off, List.length_nil]
      omega
  rw [f1]
  simp only [f2, f3]
  simp [ResponseWriter.Len, Buffer.Len, Buffer.lenBuf, Buffer.off, h3]

/-- Witness of C13 with `c = 4`: `Write([1,2,3])` succeeds with length `3`,
`Write([4,5])` fails with length `3`, and after `Reset` `Write([1,2,3,4])` succeeds with
length `4`. -/
theorem writer_trace_witness :
    ((emptyWriter 4).Write [1, 2, 3]).2 = (3, none) ∧
    ((emptyWriter 4).Write [1, 2, 3]).1.Len = 3 ∧
    (((emptyWriter 4).Write [1, 2, 3]).1.Write [4, 5]).2 = (0, some GoError.ErrShortWrite) ∧
    (((emptyWriter 4).Write [1, 2, 3]).1.Write [4, 5]).1.Len = 3 ∧
    ((((emptyWriter 4).Write [1, 2, 3]).1.Write [4, 5]).1.Reset.Write [1, 2, 3, 4]).2 =
      (4, none) ∧
    ((((emptyWriter 4).Write [1, 2, 3]).1.Write [4, 5]).1.Reset.Write [1, 2, 3, 4]).1.Len = 4 :=
  writer_trace 4 [1, 2, 3] [4, 5] [1, 2, 3, 4] (by decide) (by decide) (by decide)

/-- Counterexample to C17 as stated: the writer over a buffer of capacity `4` that holds
the two unread bytes `[5, 6]` behind one byte already read has `Len() = 2 ≤ Cap() = 4`;
`Write([7, 8])` is accepted, the buffer reallocates and `Cap()` becomes `8`. -/
theorem Write_changes_cap_after_read :
    writerRead.Len = 2 ∧ writerRead.Cap = 4 ∧ writerRead.Len ≤ writerRead.Cap ∧
    (writerRead.Write [7, 8]).2 = (2, none) ∧
    (writerRead.Write [7, 8]).1.content = [5, 6, 7, 8] ∧
    (writerRead.Write [7, 8]).1.Cap = 8 := by
  decide

/-- C17, amended: on a writer whose buffer has read offset `0` (nothing was read from it),
for every `b`, `Cap()` after `Write(b)` is `Cap()` before it, whether `b` is accepted or
rejected; and a rejected `Write` leaves `Cap()` as it was whatever the read offset. -/
theorem Write_keeps_cap (w : ResponseWriter) (b : List Nat)
    (h : w.buf.off = 0 ∨ ¬ (b.length : Int) ≤ w.Cap - w.Len) :
    (w.Write b).1.Cap = w.Cap := by
  by_cases hf : (b.length : Int) ≤ w.Cap - w.Len
  · rcases h with hoff | hrej
    · rw [Write_of_fits w b hf hoff]
      have hf2 : (b.length : Int) ≤ (w.buf.capBuf : Int) - (w.buf.lenBuf : Int) := by
        simp only [ResponseWriter.Cap, ResponseWriter.Len, Buffer.Cap, Buffer.Len, hoff] at hf
        omega
      simp only [ResponseWriter.Cap, Buffer.Cap, (Buffer_extend_unread w.buf b hf2).2.1]
    · exact absurd hf hrej
  · rw [Write_of_short w b hf]

/-- Witness of C17 (amended): on the empty writer of capacity `4` an accepted write of
`[1, 2, 3]` leaves the capacity at `4`, and on the writer with read offset `1` the
rejected write of `[7, 8, 9]` leaves the capacity at `4`. -/
theorem Write_keeps_cap_witness :
    (writer4.Write [1, 2, 3]).1.Cap = writer4.Cap ∧
    (writerRead.Write [7, 8, 9]).1.Cap = writerRead.Cap :=
  ⟨Write_keeps_cap writer4 [1, 2, 3] (Or.inl (by decide)),
   Write_keeps_cap writerRead [7, 8, 9] (Or.inr (by decide))⟩

end att
